import Mathlib

/-
Shallow embedding of the two source files of the repository:
src/md_to_pdf.py (the fallback markdown renderer) and
src/build_all_md.py (the aggregator and pandoc driver).
Machine strings are Lean Strings, Python dictionaries become inductive
constructors with exactly the fields the source reads.
-/

namespace MdToPdf

/-- Inline AST node as the inline composer of md_to_pdf.py reads it. The
constructor named other models a node of unrecognized type, carrying its
children field when the dictionary has one and none when it does not. -/
inductive Inline where
  | text (raw : String)
  | linebreak
  | softbreak
  | emphasis (children : List Inline)
  | strong (children : List Inline)
  | link (children : List Inline) (url : String)
  | codespan (raw : String)
  | image (alt : String) (url : String)
  | other (children : Option (List Inline))

/-- Child of a list item as the list case reads it: a paragraph block with
inline children, a bare text block with a text field, or any other kind,
which the loop skips. -/
inductive LiChild where
  | paragraph (children : List Inline)
  | text (text : String)
  | other

/-- Top level block node as the walker loop of md_to_pdf reads it. A block
quote keeps, per child block, only the inline children field the source
accesses; a list keeps its items as lists of item children; a table keeps
rows of cells of inline content. The constructor named other models an
unrecognized block kind with an optional inline children field. -/
inductive Block where
  | heading (children : List Inline) (level : Int)
  | paragraph (children : List Inline)
  | block_quote (children : List (List Inline))
  | list (children : List (List LiChild)) (ordered : Bool)
  | thematic_break
  | code (text : String)
  | table (children : List (List (List Inline)))
  | other (children : Option (List Inline))

/-- Layout instruction appended to the flow list: mirrors the ReportLab
flowables the source constructs. Styles are kept as the style sheet key the
source passes; the thickness constant of the horizontal rule is a float in
the source and is not modelled. -/
inductive Instr where
  | Paragraph (text : String) (style : String)
  | ListFlowable (items : List String) (bulletType : String)
  | Preformatted (text : String) (style : String)
  | Spacer (w h : Nat)
  | HRFlowable (width : String)
  deriving DecidableEq

/-- Inline composer: the inline function of md_to_pdf.py, folding the node
list left to right into one markup annotated string. -/
def inline : List Inline → String
  | [] => ""
  | .text raw :: rest => raw ++ inline rest
  | .linebreak :: rest => "<br/>" ++ inline rest
  | .softbreak :: rest => " " ++ inline rest
  | .emphasis cs :: rest => "<i>" ++ inline cs ++ "</i>" ++ inline rest
  | .strong cs :: rest => "<b>" ++ inline cs ++ "</b>" ++ inline rest
  | .link cs url :: rest =>
      (let label := inline cs
       if url ≠ "" then label ++ " (" ++ url ++ ")" else label) ++ inline rest
  | .codespan raw :: rest => "<font face=\x27Courier\x27>" ++ raw ++ "</font>" ++ inline rest
  | .image alt url :: rest => "[Image: " ++ alt ++ "] (" ++ url ++ ")" ++ inline rest
  | .other (some cs) :: rest => inline cs ++ inline rest
  | .other none :: rest => inline rest

/-- Chunks collected for one list item by the loop of the list case: the
composed text of each paragraph child and the text field of each bare text
child, in order; every other child kind is skipped. -/
def itemChunks : List LiChild → List String
  | [] => []
  | .paragraph cs :: rest => inline cs :: itemChunks rest
  | .text t :: rest => t :: itemChunks rest
  | .other :: rest => itemChunks rest

/-- Item string: the chunks of the item joined by a single space. -/
def itemText (li : List LiChild) : String := String.intercalate " " (itemChunks li)

/-- Cells of one table row, composed and joined by the pipe separator. -/
def joinCells (row : List (List Inline)) : String :=
  String.intercalate " | " (row.map inline)

/-- Separator line built by the table case: the em dash character repeated
twenty times. -/
def tableSep : String := String.mk (List.replicate 20 '—')

/-- Style lookup of the heading helper: the dictionary from levels one, two
and three to the style names H1, H2 and H3, with default H3 for every other
key. -/
def headingName (level : Int) : String :=
  if level = 1 then "H1" else if level = 2 then "H2" else if level = 3 then "H3" else "H3"

/-- Instructions appended for one block node, one dispatch step of the loop
in md_to_pdf. A table node with an empty child list makes the source raise
an index error on children zero, modelled as an error value. -/
def blockInstrs : Block → Except Unit (List Instr)
  | .heading cs level => .ok [.Paragraph (inline cs) (headingName level)]
  | .paragraph cs => .ok [.Paragraph (inline cs) "Body"]
  | .block_quote children =>
      let txt := match children with
        | [] => ""
        | c :: _ => inline c
      .ok [.Paragraph ("&ldquo;" ++ txt ++ "&rdquo;") "Body"]
  | .list lis ordered =>
      .ok [.ListFlowable (lis.map itemText) (if ordered then "1" else "bullet")]
  | .thematic_break => .ok [.Spacer 1 6, .HRFlowable "100%", .Spacer 1 6]
  | .code text => .ok [.Preformatted text "Code"]
  | .table [] => .error ()
  | .table (hd :: tl) =>
      .ok [.Paragraph (String.intercalate "\n" ([joinCells hd] ++ [tableSep] ++ tl.map joinCells)) "Body"]
  | .other (some cs) => .ok [.Paragraph (inline cs) "Body"]
  | .other none => .ok []

/-- Output flow built by the walk over the whole document tree, in input
order. An error at any block aborts the run with no output, matching an
uncaught Python exception raised before doc build is called. -/
def md_to_pdf : List Block → Except Unit (List Instr)
  | [] => .ok []
  | b :: rest =>
      match blockInstrs b, md_to_pdf rest with
      | .ok i, .ok r => .ok (i ++ r)
      | .error e, _ => .error e
      | .ok _, .error e => .error e


/-- Heading style dictated by the spec wording for a clamped level: the
style of min of the level and three, where one and two keep their own
styles. -/
def headingStyleSpec : Int → String :=
  fun m => if m = 1 then "H1" else if m = 2 then "H2" else "H3"

/-- Contribution of one list item child following the claim wording: a
paragraph child contributes its composed inline text, a bare text child
its text field, every other kind is dropped. -/
def chunkOf : LiChild → Option String
  | .paragraph cs => some (inline cs)
  | .text t => some t
  | .other => none

/-- Number of output flow instructions one block of a recognized kind is
specified to produce: three for a thematic break, one for everything
else. -/
def instrCount : Block → Nat
  | .thematic_break => 3
  | _ => 1

/-- Recognized block kind, with the parser invariant that a table node
always carries at least its header row. -/
def recognizedBlock : Block → Bool
  | .other _ => false
  | .table rows => !rows.isEmpty
  | _ => true

/-- Instructions one block of a recognized kind is specified to produce,
following the spec wording case by case: exactly one instruction per
block, except a thematic break, which produces the spacer, the horizontal
rule and the second spacer, in that order; a table reads its first row as
the header and the remaining rows as body. -/
def blockFlowSpec : Block → List Instr
  | .heading cs level => [.Paragraph (inline cs) (headingName level)]
  | .paragraph cs => [.Paragraph (inline cs) "Body"]
  | .block_quote children =>
      [.Paragraph
        ("&ldquo;" ++ (match children with | [] => "" | c :: _ => inline c) ++ "&rdquo;")
        "Body"]
  | .list lis ordered =>
      [.ListFlowable (lis.map itemText) (if ordered then "1" else "bullet")]
  | .thematic_break => [.Spacer 1 6, .HRFlowable "100%", .Spacer 1 6]
  | .code t => [.Preformatted t "Code"]
  | .table rows =>
      [.Paragraph
        (String.intercalate "\n"
          ((rows.take 1).map joinCells ++ [tableSep] ++ (rows.drop 1).map joinCells))
        "Body"]
  | .other _ => []

end MdToPdf

namespace BuildAllMd

/-- Observable environment of one run of run_pandoc in build_all_md.py:
which executables resolve on the path and the exit status each subprocess
call would return. -/
structure PandocEnv where
  pandocPresent : Bool
  firstExit : Nat
  wkhtmltopdfPresent : Bool
  secondExit : Nat
  deriving DecidableEq

/-- One subprocess invocation of the external tool: with the default PDF
engine, or with the flag selecting the wkhtmltopdf engine. -/
inductive Engine where
  | defaultEngine
  | wkhtml
  deriving DecidableEq

/-- Result and attempt trace of run_pandoc: the boolean the function
returns, paired with the list of subprocess invocations it makes, in
order. A nonzero exit status raises a called process error that the source
catches and turns into the next branch. -/
def run_pandoc (env : PandocEnv) : Bool × List Engine :=
  if env.pandocPresent = false then (false, [])
  else if env.firstExit = 0 then (true, [.defaultEngine])
  else if env.wkhtmltopdfPresent then
    if env.secondExit = 0 then (true, [.defaultEngine, .wkhtml])
    else (false, [.defaultEngine, .wkhtml])
  else (false, [.defaultEngine])

/-- Number of times main invokes the pure Python fallback renderer: once
when run_pandoc returned false, never otherwise. -/
def fallbackRuns (env : PandocEnv) : Nat :=
  if (run_pandoc env).1 then 0 else 1

/-- Whitespace class of the Python regular expression module for text
patterns, over the characters the matcher tests. -/
def isPySpace (c : Char) : Bool :=
  c == ' ' || c == '\t' || c == '\n' || c == '\x0b' || c == '\x0c' || c == '\r' ||
  c == '\x1c' || c == '\x1d' || c == '\x1e' || c == '\x1f' || c == '\x85' || c == '\xa0' ||
  c == ' ' || (0x2000 ≤ c.toNat && c.toNat ≤ 0x200a) || c == ' ' ||
  c == ' ' || c == ' ' || c == ' ' || c == '　'

/-- Length of the leading run of hash characters. -/
def countHashes : List Char → Nat
  | c :: cs => if c == '#' then countHashes cs + 1 else 0
  | [] => 0

/-- Match of the demotion pattern at a line start position: one to six
leading hashes followed by one whitespace character. Returns the run
length, the matched whitespace character and the remainder after it.
Greedy matching with backtracking reduces to this test on the maximal run,
because any shorter prefix of a hash run is followed by another hash
rather than by whitespace. -/
def headMatch (l : List Char) : Option (Nat × Char × List Char) :=
  let k := countHashes l
  if 1 ≤ k ∧ k ≤ 6 then
    match l.drop k with
    | d :: rs => if isPySpace d then some (k, d, rs) else none
    | [] => none
  else none

/-- Scanner state of the multiline substitution of demote_headings: at a
line start position, where the anchored pattern may match; inside a
leading hash run of length k entered from a line start; or in the middle
of a line, where the anchor fails and characters are copied verbatim. -/
inductive ScanState where
  | lineStart
  | inRun (k : Nat)
  | midLine
  deriving DecidableEq

/-- State after copying or consuming one character: a newline puts the
scanner back at a line start, anything else mid line. -/
def stateAfter (c : Char) : ScanState :=
  if c == '\n' then .lineStart else .midLine

/-- Scan of the multiline substitution in demote_headings, one character at
a time. The pattern is anchored at line starts, so a match can only begin
there; the scanner accumulates the maximal leading hash run and, at its
first non hash character, applies the greedy match test: a run of one to
six hashes followed by a whitespace character is replaced by the demoted
run and a single space, consuming that whitespace character; otherwise the
run and the character are emitted unchanged. A run that reaches the end of
input has no following whitespace and is emitted unchanged. -/
def demoteScan (delta : Nat) : ScanState → List Char → List Char
  | .inRun k, [] => List.replicate k '#'
  | _, [] => []
  | .lineStart, c :: cs =>
      if c == '#' then demoteScan delta (.inRun 1) cs
      else c :: demoteScan delta (stateAfter c) cs
  | .inRun k, c :: cs =>
      if c == '#' then demoteScan delta (.inRun (k + 1)) cs
      else if 1 ≤ k ∧ k ≤ 6 ∧ isPySpace c then
        List.replicate (min 6 (k + delta)) '#' ++ ' ' :: demoteScan delta (stateAfter c) cs
      else
        List.replicate k '#' ++ c :: demoteScan delta (stateAfter c) cs
  | .midLine, c :: cs => c :: demoteScan delta (stateAfter c) cs

/-- Demotion of heading markers: the function demote_headings of
build_all_md.py, acting on the character list of the input string. -/
def demote_headings (md : List Char) (delta : Nat) : List Char :=
  demoteScan delta .lineStart md


/-- One line transformed as the amended claim reads it: a leading run of
one to six hashes followed by one whitespace character becomes the demoted
run, a single space, and the remainder of the line after that character;
any other line is unchanged. -/
def demoteLineSpec (delta : Nat) (l : List Char) : List Char :=
  match headMatch l with
  | some (k, _, rs) => List.replicate (min 6 (k + delta)) '#' ++ ' ' :: rs
  | none => l

/-- Join of lines by single newlines, the reading of an input string as a
list of newline free lines. -/
def joinLines : List (List Char) → List Char
  | [] => []
  | [l] => l
  | l :: ls => l ++ '\n' :: joinLines ls

/-- Line made of one to six hashes and nothing else. Inside the full
string such a line matches across its terminating newline, which the
substitution then consumes, merging the line with the following one. -/
def bareHashLine (l : List Char) : Prop :=
  countHashes l = l.length ∧ 1 ≤ l.length ∧ l.length ≤ 6

instance (l : List Char) : Decidable (bareHashLine l) := by
  unfold bareHashLine; infer_instance

end BuildAllMd

namespace MdToPdf

/-- C3: for every heading block with level between one and six, the walker
emits exactly one heading instruction whose style is the style of the
clamped level min level three; levels one and two map to their own styles
and every level from three through six maps to the level three style. -/
theorem c3_heading_clamp (cs : List Inline) (level : Int)
    (h1 : 1 ≤ level) (h6 : level ≤ 6) :
    md_to_pdf [.heading cs level] =
      .ok [.Paragraph (inline cs) (headingStyleSpec (min level 3))] ∧
    (3 ≤ level → headingStyleSpec (min level 3) = "H3") := by
  have hstyle : headingName level = headingStyleSpec (min level 3) := by
    interval_cases level <;> decide
  constructor
  · simp [md_to_pdf, blockInstrs, hstyle]
  · intro h3
    rw [min_eq_right h3]
    decide

/-- Witness for C3 at level five. -/
theorem c3_heading_clamp_witness :
    md_to_pdf [.heading [.text "t"] 5] =
      .ok [.Paragraph (inline [.text "t"]) (headingStyleSpec (min 5 3))] ∧
    (3 ≤ (5 : Int) → headingStyleSpec (min 5 3) = "H3") :=
  c3_heading_clamp [.text "t"] 5 (by decide) (by decide)

/-- C9: the style lookup of the heading helper is total over all integer
levels: it always returns one of the three heading styles, every level
other than one or two gets the level three style, and the walker succeeds
on a heading of any level whatsoever. -/
theorem c9_heading_total (level : Int) (cs : List Inline) :
    (headingName level = "H1" ∨ headingName level = "H2" ∨ headingName level = "H3") ∧
    (level = 1 ∨ level = 2 ∨ headingName level = "H3") ∧
    md_to_pdf [.heading cs level] = .ok [.Paragraph (inline cs) (headingName level)] := by
  refine ⟨?_, ?_, ?_⟩
  · unfold headingName
    rcases eq_or_ne level 1 with h | h1
    · simp [h]
    rcases eq_or_ne level 2 with h | h2
    · simp [h, h1]
    rw [if_neg h1, if_neg h2]
    split
    · exact Or.inr (Or.inr rfl)
    · exact Or.inr (Or.inr rfl)
  · rcases eq_or_ne level 1 with h | h1
    · exact Or.inl h
    rcases eq_or_ne level 2 with h | h2
    · exact Or.inr (Or.inl h)
    refine Or.inr (Or.inr ?_)
    unfold headingName
    rw [if_neg h1, if_neg h2]
    split <;> rfl
  · simp [md_to_pdf, blockInstrs]

/-- C5: a link node composes to its label text followed by a space and the
parenthesized URL when the URL is nonempty, and to exactly the label text
with no trailing parenthetical when the URL is empty, in any inline
position. -/
theorem c5_link (cs : List Inline) (url : String) (rest : List Inline) :
    inline (.link cs url :: rest) =
      (if url = "" then inline cs else inline cs ++ " (" ++ url ++ ")") ++ inline rest ∧
    inline [.link cs ""] = inline cs := by
  constructor
  · simp only [inline]
    rcases eq_or_ne url "" with h | h <;> simp [h]
  · simp [inline]

/-- C6: an unrecognized inline node composes to its recursively composed
children when the children field is present and to the empty string
otherwise, and an unrecognized block node emits one body paragraph of its
composed children when present and otherwise nothing; in both cases the
walk returns an ordinary result rather than an error. -/
theorem c6_unknown_fallback (cs : List Inline) (rest : List Inline) :
    inline (.other (some cs) :: rest) = inline cs ++ inline rest ∧
    inline (.other none :: rest) = inline rest ∧
    md_to_pdf [.other (some cs)] = .ok [.Paragraph (inline cs) "Body"] ∧
    md_to_pdf [.other none] = .ok [] := by
  refine ⟨?_, ?_, ?_, ?_⟩ <;> simp [inline, md_to_pdf, blockInstrs]

end MdToPdf

namespace MdToPdf

/-- C2: a list block emits exactly one list instruction whose item strings
are, in input order, the space joined contributions of the paragraph and
bare text children of each item, tagged with the numbered bullet type
exactly when the list carries the ordered attribute; in particular two
items holding one paragraph each give the two item strings in order. -/
theorem c2_list (lis : List (List LiChild)) (ordered : Bool) :
    md_to_pdf [.list lis ordered] =
      .ok [.ListFlowable
            (lis.map fun li => String.intercalate " " (li.filterMap chunkOf))
            (if ordered then "1" else "bullet")] ∧
    md_to_pdf [.list [[.paragraph [.text "foo"]], [.paragraph [.text "bar"]]] false] =
      .ok [.ListFlowable ["foo", "bar"] "bullet"] := by
  have hchunks : ∀ li : List LiChild, itemChunks li = li.filterMap chunkOf := by
    intro li
    induction li with
    | nil => rfl
    | cons c rest ih => cases c <;> simp [itemChunks, chunkOf, ih]
  constructor
  · simp [md_to_pdf, blockInstrs, itemText, hchunks]
  · simp [md_to_pdf, blockInstrs, itemText, itemChunks, inline]
    decide

/-- C4: a block quote emits exactly one body paragraph holding only the
composed inline content of its first child block wrapped in quotation
entities, whatever follows the first child; with no children the quoted
text is empty; and for a quote with three text children only the first
text appears in the output, the other two nowhere. -/
theorem c4_block_quote (first : List Inline) (rest : List (List Inline)) :
    md_to_pdf [.block_quote (first :: rest)] =
      .ok [.Paragraph ("&ldquo;" ++ inline first ++ "&rdquo;") "Body"] ∧
    md_to_pdf [.block_quote []] = .ok [.Paragraph ("&ldquo;" ++ "&rdquo;") "Body"] ∧
    (md_to_pdf [.block_quote [[.text "one"], [.text "two"], [.text "three"]]] =
      .ok [.Paragraph "&ldquo;one&rdquo;" "Body"] ∧
     "one".toList <:+: "&ldquo;one&rdquo;".toList ∧
     ¬ "two".toList <:+: "&ldquo;one&rdquo;".toList ∧
     ¬ "three".toList <:+: "&ldquo;one&rdquo;".toList) := by
  refine ⟨?_, ?_, ?_, ?_, ?_, ?_⟩
  · simp [md_to_pdf, blockInstrs]
  · simp [md_to_pdf, blockInstrs]
  · simp [md_to_pdf, blockInstrs, inline]
  · decide
  · decide
  · decide

/-- C1 counterexample: the separator line built by the table case is
twenty em dash characters, not twenty hyphen minus dash characters, so
the claimed composed text with twenty hyphens differs from what the code
produces on the two by two table of the claim. -/
theorem c1_counterexample :
    md_to_pdf [.table [[[.text "A"], [.text "B"]], [[.text "1"], [.text "2"]]]] =
      .ok [.Paragraph ("A | B\n" ++ String.mk (List.replicate 20 '—') ++ "\n1 | 2") "Body"] ∧
    ("A | B\n" ++ String.mk (List.replicate 20 '—') ++ "\n1 | 2") ≠
      "A | B\n--------------------\n1 | 2" := by
  constructor
  · simp [md_to_pdf, blockInstrs, inline, joinCells, tableSep]
    decide
  · decide

/-- C1 amended: for every table block with a header row and body rows, the
walker emits exactly one body style paragraph whose text is the header
cells joined by pipes, a separator line of twenty em dash characters, and
each body row joined by pipes, all joined by newlines; the two by two
example composes with the em dash separator. -/
theorem c1_table (hd : List (List Inline)) (tl : List (List (List Inline))) :
    md_to_pdf [.table (hd :: tl)] =
      .ok [.Paragraph
            (String.intercalate "\n"
              (joinCells hd :: String.mk (List.replicate 20 '—') :: tl.map joinCells))
            "Body"] ∧
    md_to_pdf [.table [[[.text "A"], [.text "B"]], [[.text "1"], [.text "2"]]]] =
      .ok [.Paragraph ("A | B\n" ++ String.mk (List.replicate 20 '—') ++ "\n1 | 2") "Body"] := by
  constructor
  · simp [md_to_pdf, blockInstrs, tableSep]
  · simp [md_to_pdf, blockInstrs, inline, joinCells, tableSep]
    decide

/-- C7: a document tree of recognized blocks walks to exactly the in
order concatenation of the per block specified instruction groups, so no
block is visited twice and instructions keep input block order; each
group has exactly one instruction except a thematic break, whose group is
exactly the spacer, the horizontal rule and the second spacer in that
order, so the flow length is the sum of the per block counts. -/
theorem c7_instruction_count (doc : List Block)
    (h : ∀ b ∈ doc, recognizedBlock b = true) :
    md_to_pdf doc = .ok (doc.map blockFlowSpec).flatten ∧
    (∀ b ∈ doc, (blockFlowSpec b).length = instrCount b) ∧
    ((doc.map blockFlowSpec).flatten).length = (doc.map instrCount).sum ∧
    blockFlowSpec .thematic_break = [.Spacer 1 6, .HRFlowable "100%", .Spacer 1 6] := by
  induction doc with
  | nil => exact ⟨rfl, by simp, rfl, rfl⟩
  | cons b rest ih =>
    obtain ⟨hfl, hper, hlen, -⟩ := ih (fun x hx => h x (List.mem_cons_of_mem _ hx))
    have hb := h b (List.mem_cons_self _ _)
    have hspec : blockInstrs b = .ok (blockFlowSpec b) := by
      cases b with
      | table rows =>
          cases rows with
          | nil => simp [recognizedBlock] at hb
          | cons hd tl => rfl
      | other o => simp [recognizedBlock] at hb
      | heading cs level => rfl
      | paragraph cs => rfl
      | block_quote cs => rfl
      | list lis ordered => rfl
      | thematic_break => rfl
      | code t => rfl
    have hcount : (blockFlowSpec b).length = instrCount b := by
      cases b with
      | other o => simp [recognizedBlock] at hb
      | table rows => rfl
      | heading cs level => rfl
      | paragraph cs => rfl
      | block_quote cs => rfl
      | list lis ordered => rfl
      | thematic_break => rfl
      | code t => rfl
    refine ⟨?_, ?_, ?_, rfl⟩
    · rw [List.map_cons, List.flatten_cons]
      simp [md_to_pdf, hspec, hfl]
    · intro x hx
      rcases List.mem_cons.mp hx with rfl | hx
      · exact hcount
      · exact hper x hx
    · rw [List.map_cons, List.flatten_cons, List.map_cons, List.sum_cons,
        List.length_append, hcount, hlen]

/-- Witness for C7 on a five block document holding one of each of five
recognized kinds: the resulting flow is the concatenation of the per
block groups in input order, each group has the specified size, and the
thematic break contributes its spacer, rule, spacer triple, for a total
of seven instructions. -/
theorem c7_instruction_count_witness :
    md_to_pdf [.heading [.text "h"] 1, .paragraph [.text "p"], .thematic_break,
               .code "x", .table [[[.text "A"]]]] =
      .ok ([Block.heading [.text "h"] 1, .paragraph [.text "p"], .thematic_break,
            .code "x", .table [[[.text "A"]]]].map blockFlowSpec).flatten ∧
    (∀ b ∈ [Block.heading [.text "h"] 1, .paragraph [.text "p"], .thematic_break,
            .code "x", .table [[[.text "A"]]]],
      (blockFlowSpec b).length = instrCount b) ∧
    (([Block.heading [.text "h"] 1, .paragraph [.text "p"], .thematic_break,
       .code "x", .table [[[.text "A"]]]].map blockFlowSpec).flatten).length =
      ([Block.heading [.text "h"] 1, .paragraph [.text "p"], .thematic_break,
        .code "x", .table [[[.text "A"]]]].map instrCount).sum ∧
    blockFlowSpec .thematic_break = [.Spacer 1 6, .HRFlowable "100%", .Spacer 1 6] :=
  c7_instruction_count _ (by decide)

end MdToPdf

namespace BuildAllMd

/-- C8: run_pandoc first tries the external tool with its default engine
exactly when the tool resolves; the alternate engine attempt happens
exactly when the first attempt exited nonzero and the alternate engine is
present; the returned flag is true exactly when some attempt exited zero;
and main runs the in process fallback exactly once precisely when the tool
is absent or every attempt made failed, and never otherwise. -/
theorem c8_pandoc_fallback (env : PandocEnv) :
    ((run_pandoc env).2.head? =
      if env.pandocPresent then some Engine.defaultEngine else none) ∧
    (Engine.wkhtml ∈ (run_pandoc env).2 ↔
      env.pandocPresent = true ∧ env.firstExit ≠ 0 ∧ env.wkhtmltopdfPresent = true) ∧
    ((run_pandoc env).1 = true ↔
      env.pandocPresent = true ∧
        (env.firstExit = 0 ∨ (env.wkhtmltopdfPresent = true ∧ env.secondExit = 0))) ∧
    (fallbackRuns env = 1 ↔
      env.pandocPresent = false ∨
        (env.firstExit ≠ 0 ∧ (env.wkhtmltopdfPresent = true → env.secondExit ≠ 0))) ∧
    (fallbackRuns env = 0 ∨ fallbackRuns env = 1) := by
  obtain ⟨p, f, w, s⟩ := env
  cases p <;> cases w <;>
    rcases eq_or_ne f 0 with hf | hf <;>
      rcases eq_or_ne s 0 with hs | hs <;>
        simp_all [run_pandoc, fallbackRuns]

end BuildAllMd

namespace BuildAllMd

theorem countHashes_cons_hash (cs : List Char) :
    countHashes ('#' :: cs) = countHashes cs + 1 := by
  simp [countHashes]

theorem countHashes_cons_ne {c : Char} (cs : List Char) (h : ¬ c = '#') :
    countHashes (c :: cs) = 0 := by
  simp [countHashes, h]

theorem countHashes_replicate (k : Nat) : countHashes (List.replicate k '#') = k := by
  induction k with
  | zero => rfl
  | succ n ih => rw [List.replicate_succ, countHashes_cons_hash, ih]

theorem countHashes_replicate_append (k : Nat) {c : Char} (cs : List Char) (hc : ¬ c = '#') :
    countHashes (List.replicate k '#' ++ c :: cs) = k := by
  induction k with
  | zero => simpa using countHashes_cons_ne cs hc
  | succ n ih => rw [List.replicate_succ, List.cons_append, countHashes_cons_hash, ih]

theorem drop_countHashes_head (l : List Char) :
    l.drop (countHashes l) = [] ∨
      ∃ c cs, l.drop (countHashes l) = c :: cs ∧ ¬ c = '#' := by
  induction l with
  | nil => exact Or.inl rfl
  | cons c cs ih =>
    by_cases hc : c = '#'
    · subst hc
      rw [countHashes_cons_hash, List.drop_succ_cons]
      exact ih
    · rw [countHashes_cons_ne cs hc, List.drop_zero]
      exact Or.inr ⟨c, cs, rfl, hc⟩

theorem countHashes_decomp (l : List Char) :
    l = List.replicate (countHashes l) '#' ++ l.drop (countHashes l) := by
  induction l with
  | nil => rfl
  | cons c cs ih =>
    by_cases hc : c = '#'
    · subst hc
      rw [countHashes_cons_hash, List.drop_succ_cons, List.replicate_succ, List.cons_append]
      exact congrArg (List.cons '#') ih
    · rw [countHashes_cons_ne cs hc, List.drop_zero, List.replicate_zero, List.nil_append]

theorem headMatch_nil : headMatch [] = none := by
  simp [headMatch, countHashes]

theorem headMatch_no_hash {c : Char} (cs : List Char) (hc : ¬ c = '#') :
    headMatch (c :: cs) = none := by
  simp [headMatch, countHashes_cons_ne cs hc]

theorem headMatch_replicate (m : Nat) : headMatch (List.replicate m '#') = none := by
  simp only [headMatch, countHashes_replicate]
  by_cases h : 1 ≤ m ∧ m ≤ 6
  · rw [if_pos h]
    have hdrop : (List.replicate m '#').drop m = ([] : List Char) := by
      have := List.drop_length (List.replicate m '#' : List Char)
      simpa [List.length_replicate] using this
    rw [hdrop]
  · rw [if_neg h]

theorem headMatch_decomp_match (m : Nat) {c : Char} (ts : List Char)
    (hc : ¬ c = '#') (h1 : 1 ≤ m) (h6 : m ≤ 6) (hws : isPySpace c = true) :
    headMatch (List.replicate m '#' ++ c :: ts) = some (m, c, ts) := by
  have hdrop : (List.replicate m '#' ++ c :: ts).drop m = c :: ts := by
    have := List.drop_left (List.replicate m '#') (c :: ts)
    simpa [List.length_replicate] using this
  simp only [headMatch, countHashes_replicate_append m ts hc]
  rw [if_pos ⟨h1, h6⟩, hdrop]
  simp [hws]

theorem headMatch_decomp_nomatch (m : Nat) {c : Char} (ts : List Char)
    (hc : ¬ c = '#') (hfail : ¬(m ≤ 6 ∧ isPySpace c = true)) :
    headMatch (List.replicate m '#' ++ c :: ts) = none := by
  have hdrop : (List.replicate m '#' ++ c :: ts).drop m = c :: ts := by
    have := List.drop_left (List.replicate m '#') (c :: ts)
    simpa [List.length_replicate] using this
  simp only [headMatch, countHashes_replicate_append m ts hc]
  by_cases h6 : m ≤ 6
  · have hws : ¬ isPySpace c = true := fun hw => hfail ⟨h6, hw⟩
    by_cases h1 : 1 ≤ m
    · rw [if_pos ⟨h1, h6⟩, hdrop]
      simp [hws]
    · rw [if_neg (fun hh => h1 hh.1)]
  · rw [if_neg (fun hh => h6 hh.2)]

end BuildAllMd

namespace BuildAllMd

theorem stateAfter_newline : stateAfter '\n' = ScanState.lineStart := by
  simp [stateAfter]

theorem stateAfter_ne {c : Char} (h : ¬ c = '\n') : stateAfter c = ScanState.midLine := by
  simp [stateAfter, h]

theorem demoteScan_lineStart_hash (delta : Nat) (cs : List Char) :
    demoteScan delta .lineStart ('#' :: cs) = demoteScan delta (.inRun 1) cs := by
  simp [demoteScan]

theorem demoteScan_lineStart_ne (delta : Nat) {c : Char} (cs : List Char) (hc : ¬ c = '#') :
    demoteScan delta .lineStart (c :: cs) = c :: demoteScan delta (stateAfter c) cs := by
  simp [demoteScan, hc]

theorem demoteScan_midLine_cons (delta : Nat) (c : Char) (cs : List Char) :
    demoteScan delta .midLine (c :: cs) = c :: demoteScan delta (stateAfter c) cs := by
  simp [demoteScan]

theorem demoteScan_inRun_hash (delta k : Nat) (cs : List Char) :
    demoteScan delta (.inRun k) ('#' :: cs) = demoteScan delta (.inRun (k + 1)) cs := by
  simp [demoteScan]

theorem demoteScan_inRun_cons_match (delta k : Nat) {c : Char} (cs : List Char)
    (hc : ¬ c = '#') (h1 : 1 ≤ k) (h6 : k ≤ 6) (hws : isPySpace c = true) :
    demoteScan delta (.inRun k) (c :: cs) =
      List.replicate (min 6 (k + delta)) '#' ++ ' ' :: demoteScan delta (stateAfter c) cs := by
  simp [demoteScan, hc, h1, h6, hws]

theorem demoteScan_inRun_cons_nomatch (delta k : Nat) {c : Char} (cs : List Char)
    (hc : ¬ c = '#') (hfail : ¬(k ≤ 6 ∧ isPySpace c = true)) :
    demoteScan delta (.inRun k) (c :: cs) =
      List.replicate k '#' ++ c :: demoteScan delta (stateAfter c) cs := by
  have hcond : ¬(1 ≤ k ∧ k ≤ 6 ∧ isPySpace c = true) := by tauto
  simp [demoteScan, hc, hcond]

theorem demoteScan_midLine_append (delta : Nat) (l rest : List Char) (h : '\n' ∉ l) :
    demoteScan delta .midLine (l ++ rest) = l ++ demoteScan delta .midLine rest := by
  induction l with
  | nil => rfl
  | cons c cs ih =>
    have hc : ¬ c = '\n' := fun hc => h (hc ▸ List.mem_cons_self c cs)
    rw [List.cons_append, demoteScan_midLine_cons, stateAfter_ne hc,
      ih (fun hm => h (List.mem_cons_of_mem _ hm))]
    rfl

theorem demoteScan_midLine_all (delta : Nat) (l : List Char) (h : '\n' ∉ l) :
    demoteScan delta .midLine l = l := by
  have h0 : demoteScan delta ScanState.midLine ([] : List Char) = [] := rfl
  have := demoteScan_midLine_append delta l [] h
  simpa [h0] using this

theorem demoteScan_inRun_hashes (delta j i : Nat) {c : Char} (cs : List Char)
    (hc : ¬ c = '#') :
    demoteScan delta (.inRun j) (List.replicate i '#' ++ c :: cs) =
      demoteScan delta (.inRun (j + i)) (c :: cs) := by
  induction i generalizing j with
  | zero => simp
  | succ n ih =>
    rw [List.replicate_succ, List.cons_append, demoteScan_inRun_hash, ih (j + 1),
      show j + 1 + n = j + (n + 1) from by omega]

theorem demoteScan_inRun_hashes_end (delta j i : Nat) :
    demoteScan delta (.inRun j) (List.replicate i '#') = List.replicate (j + i) '#' := by
  induction i generalizing j with
  | zero => simp [demoteScan]
  | succ n ih =>
    rw [List.replicate_succ, demoteScan_inRun_hash, ih (j + 1),
      show j + 1 + n = j + (n + 1) from by omega]

end BuildAllMd

namespace BuildAllMd

theorem demoteLineSpec_of_none {delta : Nat} {l : List Char} (h : headMatch l = none) :
    demoteLineSpec delta l = l := by
  simp [demoteLineSpec, h]

theorem demoteLineSpec_of_some {delta : Nat} {l : List Char} {k : Nat} {d : Char}
    {rs : List Char} (h : headMatch l = some (k, d, rs)) :
    demoteLineSpec delta l = List.replicate (min 6 (k + delta)) '#' ++ ' ' :: rs := by
  simp [demoteLineSpec, h]

theorem demoteScan_line (delta : Nat) (l rest : List Char) (hnl : '\n' ∉ l)
    (hbare : ¬ bareHashLine l) :
    demoteScan delta .lineStart (l ++ '\n' :: rest) =
      demoteLineSpec delta l ++ '\n' :: demoteScan delta .lineStart rest := by
  rcases Nat.eq_zero_or_pos (countHashes l) with hm0 | hmpos
  · cases l with
    | nil =>
      rw [List.nil_append, demoteScan_lineStart_ne delta rest (by decide), stateAfter_newline,
        demoteLineSpec_of_none headMatch_nil, List.nil_append]
    | cons c cs =>
      have hc : ¬ c = '#' := by
        intro h; subst h; rw [countHashes_cons_hash] at hm0; omega
      have hcn : ¬ c = '\n' := fun h => hnl (h ▸ List.mem_cons_self _ _)
      rw [List.cons_append, demoteScan_lineStart_ne delta _ hc, stateAfter_ne hcn,
        demoteScan_midLine_append delta cs ('\n' :: rest)
          (fun hm => hnl (List.mem_cons_of_mem _ hm)),
        demoteScan_midLine_cons, stateAfter_newline,
        demoteLineSpec_of_none (headMatch_no_hash cs hc)]
      simp
  · obtain ⟨n, hn⟩ : ∃ n, countHashes l = n + 1 := ⟨countHashes l - 1, by omega⟩
    have hdec := countHashes_decomp l
    rcases drop_countHashes_head l with ht | ⟨c, ts, ht, hc⟩
    · rw [ht, List.append_nil, hn] at hdec
      have hlen : l.length = n + 1 := by
        conv_lhs => rw [hdec]
        simp
      have h7 : ¬ n + 1 ≤ 6 := by
        intro h6
        exact hbare ⟨by omega, by omega, by omega⟩
      calc demoteScan delta .lineStart (l ++ '\n' :: rest)
          = demoteScan delta .lineStart (List.replicate (n + 1) '#' ++ '\n' :: rest) := by
            rw [← hdec]
        _ = demoteScan delta (.inRun 1) (List.replicate n '#' ++ '\n' :: rest) := by
            rw [List.replicate_succ, List.cons_append, demoteScan_lineStart_hash]
        _ = demoteScan delta (.inRun (1 + n)) ('\n' :: rest) :=
            demoteScan_inRun_hashes delta 1 n rest (by decide)
        _ = List.replicate (1 + n) '#' ++ '\n' :: demoteScan delta (stateAfter '\n') rest := by
            refine demoteScan_inRun_cons_nomatch delta (1 + n) rest (by decide) ?_
            intro hcontra
            exact h7 (by omega)
        _ = demoteLineSpec delta l ++ '\n' :: demoteScan delta .lineStart rest := by
            rw [stateAfter_newline,
              demoteLineSpec_of_none (show headMatch l = none from by
                rw [hdec]; exact headMatch_replicate (n + 1)),
              hdec, show 1 + n = n + 1 from by omega]
    · have hcn : ¬ c = '\n' := by
        intro h; subst h
        apply hnl
        have hmem : ('\n' : Char) ∈ l.drop (countHashes l) := by
          rw [ht]; exact List.mem_cons_self _ _
        exact List.drop_subset _ _ hmem
      have hts_nl : '\n' ∉ ts := by
        intro h
        apply hnl
        have hmem : ('\n' : Char) ∈ l.drop (countHashes l) := by
          rw [ht]; exact List.mem_cons_of_mem _ h
        exact List.drop_subset _ _ hmem
      rw [ht, hn] at hdec
      by_cases hcase : n + 1 ≤ 6 ∧ isPySpace c = true
      · calc demoteScan delta .lineStart (l ++ '\n' :: rest)
            = demoteScan delta .lineStart
                (List.replicate (n + 1) '#' ++ (c :: (ts ++ '\n' :: rest))) := by
              rw [hdec]; simp
          _ = demoteScan delta (.inRun 1)
                (List.replicate n '#' ++ (c :: (ts ++ '\n' :: rest))) := by
              rw [List.replicate_succ, List.cons_append, demoteScan_lineStart_hash]
          _ = demoteScan delta (.inRun (1 + n)) (c :: (ts ++ '\n' :: rest)) :=
              demoteScan_inRun_hashes delta 1 n _ hc
          _ = List.replicate (min 6 (1 + n + delta)) '#' ++
                ' ' :: demoteScan delta (stateAfter c) (ts ++ '\n' :: rest) :=
              demoteScan_inRun_cons_match delta (1 + n) _ hc (by omega) (by omega) hcase.2
          _ = List.replicate (min 6 (1 + n + delta)) '#' ++
                ' ' :: (ts ++ '\n' :: demoteScan delta .lineStart rest) := by
              rw [stateAfter_ne hcn, demoteScan_midLine_append delta ts _ hts_nl,
                demoteScan_midLine_cons, stateAfter_newline]
          _ = demoteLineSpec delta l ++ '\n' :: demoteScan delta .lineStart rest := by
              rw [demoteLineSpec_of_some (show headMatch l = some (n + 1, c, ts) from by
                rw [hdec]
                exact headMatch_decomp_match (n + 1) ts hc (by omega) hcase.1 hcase.2)]
              rw [show 1 + n = n + 1 from by omega]
              simp
      · calc demoteScan delta .lineStart (l ++ '\n' :: rest)
            = demoteScan delta .lineStart
                (List.replicate (n + 1) '#' ++ (c :: (ts ++ '\n' :: rest))) := by
              rw [hdec]; simp
          _ = demoteScan delta (.inRun 1)
                (List.replicate n '#' ++ (c :: (ts ++ '\n' :: rest))) := by
              rw [List.replicate_succ, List.cons_append, demoteScan_lineStart_hash]
          _ = demoteScan delta (.inRun (1 + n)) (c :: (ts ++ '\n' :: rest)) :=
              demoteScan_inRun_hashes delta 1 n _ hc
          _ = List.replicate (1 + n) '#' ++
                c :: demoteScan delta (stateAfter c) (ts ++ '\n' :: rest) :=
              demoteScan_inRun_cons_nomatch delta (1 + n) _ hc
                (fun h2 => hcase ⟨by omega, h2.2⟩)
          _ = List.replicate (1 + n) '#' ++
                c :: (ts ++ '\n' :: demoteScan delta .lineStart rest) := by
              rw [stateAfter_ne hcn, demoteScan_midLine_append delta ts _ hts_nl,
                demoteScan_midLine_cons, stateAfter_newline]
          _ = demoteLineSpec delta l ++ '\n' :: demoteScan delta .lineStart rest := by
              rw [demoteLineSpec_of_none (show headMatch l = none from by
                rw [hdec]
                exact headMatch_decomp_nomatch (n + 1) ts hc hcase)]
              rw [hdec, show 1 + n = n + 1 from by omega]
              simp

theorem demoteScan_lastLine (delta : Nat) (l : List Char) (hnl : '\n' ∉ l) :
    demoteScan delta .lineStart l = demoteLineSpec delta l := by
  rcases Nat.eq_zero_or_pos (countHashes l) with hm0 | hmpos
  · cases l with
    | nil => rfl
    | cons c cs =>
      have hc : ¬ c = '#' := by
        intro h; subst h; rw [countHashes_cons_hash] at hm0; omega
      have hcn : ¬ c = '\n' := fun h => hnl (h ▸ List.mem_cons_self _ _)
      rw [demoteScan_lineStart_ne delta _ hc, stateAfter_ne hcn,
        demoteScan_midLine_all delta cs (fun hm => hnl (List.mem_cons_of_mem _ hm)),
        demoteLineSpec_of_none (headMatch_no_hash cs hc)]
  · obtain ⟨n, hn⟩ : ∃ n, countHashes l = n + 1 := ⟨countHashes l - 1, by omega⟩
    have hdec := countHashes_decomp l
    rcases drop_countHashes_head l with ht | ⟨c, ts, ht, hc⟩
    · rw [ht, List.append_nil, hn] at hdec
      calc demoteScan delta .lineStart l
          = demoteScan delta .lineStart (List.replicate (n + 1) '#') := by rw [← hdec]
        _ = demoteScan delta (.inRun 1) (List.replicate n '#') := by
            rw [List.replicate_succ, demoteScan_lineStart_hash]
        _ = List.replicate (1 + n) '#' := demoteScan_inRun_hashes_end delta 1 n
        _ = demoteLineSpec delta l := by
            rw [demoteLineSpec_of_none (show headMatch l = none from by
              rw [hdec]; exact headMatch_replicate (n + 1)),
              hdec, show 1 + n = n + 1 from by omega]
    · have hcn : ¬ c = '\n' := by
        intro h; subst h
        apply hnl
        have hmem : ('\n' : Char) ∈ l.drop (countHashes l) := by
          rw [ht]; exact List.mem_cons_self _ _
        exact List.drop_subset _ _ hmem
      have hts_nl : '\n' ∉ ts := by
        intro h
        apply hnl
        have hmem : ('\n' : Char) ∈ l.drop (countHashes l) := by
          rw [ht]; exact List.mem_cons_of_mem _ h
        exact List.drop_subset _ _ hmem
      rw [ht, hn] at hdec
      by_cases hcase : n + 1 ≤ 6 ∧ isPySpace c = true
      · calc demoteScan delta .lineStart l
            = demoteScan delta .lineStart (List.replicate (n + 1) '#' ++ (c :: ts)) := by
              rw [← hdec]
          _ = demoteScan delta (.inRun 1) (List.replicate n '#' ++ (c :: ts)) := by
              rw [List.replicate_succ, List.cons_append, demoteScan_lineStart_hash]
          _ = demoteScan delta (.inRun (1 + n)) (c :: ts) :=
              demoteScan_inRun_hashes delta 1 n _ hc
          _ = List.replicate (min 6 (1 + n + delta)) '#' ++
                ' ' :: demoteScan delta (stateAfter c) ts :=
              demoteScan_inRun_cons_match delta (1 + n) _ hc (by omega) (by omega) hcase.2
          _ = demoteLineSpec delta l := by
              rw [stateAfter_ne hcn, demoteScan_midLine_all delta ts hts_nl,
                demoteLineSpec_of_some (show headMatch l = some (n + 1, c, ts) from by
                  rw [hdec]
                  exact headMatch_decomp_match (n + 1) ts hc (by omega) hcase.1 hcase.2),
                show 1 + n = n + 1 from by omega]
      · calc demoteScan delta .lineStart l
            = demoteScan delta .lineStart (List.replicate (n + 1) '#' ++ (c :: ts)) := by
              rw [← hdec]
          _ = demoteScan delta (.inRun 1) (List.replicate n '#' ++ (c :: ts)) := by
              rw [List.replicate_succ, List.cons_append, demoteScan_lineStart_hash]
          _ = demoteScan delta (.inRun (1 + n)) (c :: ts) :=
              demoteScan_inRun_hashes delta 1 n _ hc
          _ = List.replicate (1 + n) '#' ++ c :: demoteScan delta (stateAfter c) ts :=
              demoteScan_inRun_cons_nomatch delta (1 + n) _ hc
                (fun h2 => hcase ⟨by omega, h2.2⟩)
          _ = demoteLineSpec delta l := by
              rw [stateAfter_ne hcn, demoteScan_midLine_all delta ts hts_nl,
                demoteLineSpec_of_none (show headMatch l = none from by
                  rw [hdec]
                  exact headMatch_decomp_nomatch (n + 1) ts hc hcase),
                hdec, show 1 + n = n + 1 from by omega]

end BuildAllMd

namespace BuildAllMd

/-- C10 counterexample: demotion does not leave non heading text unchanged.
On the input of a line holding one hash followed by a line foo, the
substitution matches the hash and its terminating newline, consumes the
newline, and merges foo into the demoted heading line; the claimed result
keeps foo on its own unchanged line. -/
theorem c10_counterexample :
    demote_headings "#\nfoo".toList 1 = "## foo".toList ∧
    "## foo".toList ≠ "##\nfoo".toList := by
  constructor
  · decide
  · decide

/-- C10 amended: on an input whose lines carry no newline and in which no
line before the last consists solely of one to six hashes, demotion acts
line by line: a line starting with a run of one to six hashes followed by
one whitespace character becomes the run grown by delta and clamped at
six, then a single space, then the rest of the line after that character;
every other line is unchanged. A level six heading hence stays level six
and no demoted marker ever exceeds six hashes. -/
theorem c10_demote_linewise (delta : Nat) (lines : List (List Char))
    (h1 : ∀ l ∈ lines, '\n' ∉ l)
    (h2 : ∀ l ∈ lines.dropLast, ¬ bareHashLine l) :
    demote_headings (joinLines lines) delta =
      joinLines (lines.map (demoteLineSpec delta)) := by
  induction lines with
  | nil => rfl
  | cons l ls ih =>
    cases ls with
    | nil =>
      exact demoteScan_lastLine delta l (h1 l (List.mem_cons_self _ _))
    | cons l2 ls2 =>
      have hl1 : '\n' ∉ l := h1 l (List.mem_cons_self _ _)
      have hbare : ¬ bareHashLine l := by
        apply h2
        rw [List.dropLast_cons₂]
        exact List.mem_cons_self _ _
      have ihh : demoteScan delta .lineStart (joinLines (l2 :: ls2)) =
          joinLines (List.map (demoteLineSpec delta) (l2 :: ls2)) :=
        ih (fun x hx => h1 x (List.mem_cons_of_mem _ hx))
          (fun x hx => h2 x (by rw [List.dropLast_cons₂]; exact List.mem_cons_of_mem _ hx))
      have hjoin : joinLines (l :: l2 :: ls2) = l ++ '\n' :: joinLines (l2 :: ls2) := rfl
      show demoteScan delta .lineStart (joinLines (l :: l2 :: ls2)) = _
      rw [hjoin, demoteScan_line delta l _ hl1 hbare, ihh]
      rfl

/-- Witness for C10 on three lines: an ordinary heading is demoted, a
level six heading stays at six hashes, and a plain line is unchanged. -/
theorem c10_demote_linewise_witness :
    demote_headings
        (joinLines [['#', ' ', 'a'], ['#', '#', '#', '#', '#', '#', ' ', 'b'], ['x']]) 1 =
      joinLines
        ([['#', ' ', 'a'], ['#', '#', '#', '#', '#', '#', ' ', 'b'], ['x']].map
          (demoteLineSpec 1)) :=
  c10_demote_linewise 1 _ (by decide) (by decide)

end BuildAllMd
